import Mathlib

/-!
Shallow embedding of the Q&A headline generator repository (src/backend.py and
the processing loop of src/app.py), together with proofs of the specification
claims about it.

Documents are modelled at the level python-docx exposes them to this code:
a paragraph is its text plus its alignment attribute, a reconstructed
paragraph is an alignment plus a list of styled runs.  Machine-level details
(EMU sizes behind `Pt`, XML layout) are outside what the code observes.
-/

namespace Qna

/-! ### Python string primitives used by the source -/

/-- Whitespace characters recognised by Python's `str.strip` (ASCII subset,
which is all the source documents' markers use). -/
def isPySpace (c : Char) : Bool :=
  c == ' ' || c == '\t' || c == '\n' || c == '\r' || c == '\x0b' || c == '\x0c'

/-- Word characters for the regex `\b` boundary: ASCII alphanumerics,
underscore, and the Arabic block (the only non-ASCII letters the marker
tokens contain). -/
def isWordChar (c : Char) : Bool :=
  c.isAlphanum || c == '_' || (0x600 ≤ c.toNat && c.toNat ≤ 0x6FF)

/-- Trim `isPySpace` characters from both ends of a character list. -/
def trimChars (l : List Char) : List Char :=
  ((l.dropWhile isPySpace).reverse.dropWhile isPySpace).reverse

/-- Python `str.strip()`. -/
def pyStrip (s : String) : String :=
  String.mk (trimChars s.data)

/-- Python `"\n".join(lines)`. -/
def joinNL : List String → String
  | [] => ""
  | [x] => x
  | x :: rest => x ++ "\n" ++ joinNL rest

/-- Occurrence of `needle` as a contiguous sublist of `hay`. -/
def listContains (needle : List Char) : List Char → Bool
  | [] => needle.isEmpty
  | c :: t => needle.isPrefixOf (c :: t) || listContains needle t

/-- Python `needle in hay` on strings. -/
def pyIn (needle hay : String) : Bool :=
  listContains needle.data hay.data

/-- Python `s[:n]` (slicing by code points). -/
def pyTake (n : Nat) (s : String) : String :=
  String.mk (s.data.take n)

/-! ### Marker Matcher

Embeds the regexes of `parse_qna_pairs` (src/backend.py lines 51-52):
`^\s*(?:السؤال|سؤال|Question)\b\s*[:.)]?\s*` (IGNORECASE) and the same with
the answer tokens.  The patterns are applied to already-stripped text, so the
leading `\s*` is vacuous. -/

/-- Case-insensitive prefix match of a token; returns the rest of the text. -/
def matchToken : List Char → List Char → Option (List Char)
  | [], rest => some rest
  | _ :: _, [] => none
  | t :: ts, c :: cs => if t.toLower == c.toLower then matchToken ts cs else none

/-- The `\b` boundary after a token: next char absent or not a word char. -/
def boundaryOk : List Char → Bool
  | [] => true
  | c :: _ => !isWordChar c

/-- Consume `\s*[:.)]?\s*` after the token. -/
def afterMarker (cs : List Char) : List Char :=
  let cs1 := cs.dropWhile isPySpace
  let cs2 := match cs1 with
    | c :: rest => if c == ':' || c == '.' || c == ')' then rest else cs1
    | [] => cs1
  cs2.dropWhile isPySpace

/-- Try the alternation tokens in order; on a match with a valid boundary,
return the residual text after the full marker. -/
def markerMatchCs (toks : List (List Char)) (cs : List Char) : Option (List Char) :=
  match toks with
  | [] => none
  | t :: ts =>
    match matchToken t cs with
    | some rest => if boundaryOk rest then some (afterMarker rest) else markerMatchCs ts cs
    | none => markerMatchCs ts cs

def qTokens : List String := ["السؤال", "سؤال", "Question"]

def aTokens : List String := ["الجواب", "جواب", "Answer"]

/-- Question-marker match on stripped text; `some r` carries the residual
text (the source computes it with `q_pattern.sub('', text).strip()`). -/
def qMatch (s : String) : Option String :=
  (markerMatchCs (qTokens.map String.data) s.data).map fun r => pyStrip (String.mk r)

/-- Answer-marker match on stripped text, with residual. -/
def aMatch (s : String) : Option String :=
  (markerMatchCs (aTokens.map String.data) s.data).map fun r => pyStrip (String.mk r)

/-! ### Pair Segmenter (`parse_qna_pairs`, src/backend.py lines 37-98) -/

structure Pair where
  question : String
  answer : String
  q_para_index : Nat
deriving Repr, DecidableEq

/-- Mutable locals of the parsing loop.  `q_start_index` starts at `-1` in
the source but is only read after being assigned together with a truthy
`current_q`, so a `Nat` initialised to `0` is observationally equal.
`warnings` counts the orphaned-question diagnostic prints. -/
structure SegState where
  pairs : List Pair
  current_q : Option String
  current_a : List String
  q_start_index : Nat
  is_parsing_answer : Bool
  warnings : Nat
deriving Repr, DecidableEq

/-- Python truthiness of the `current_q` local (`None` and `""` are falsy). -/
def truthyQ : Option String → Bool
  | none => false
  | some s => s != ""

def initSegState : SegState :=
  { pairs := [], current_q := none, current_a := [], q_start_index := 0,
    is_parsing_answer := false, warnings := 0 }

/-- Finalize the currently open pair exactly as the source does at a new
question marker (lines 63-70) and at end of input (lines 89-96). -/
def finalizePair (st : SegState) : SegState :=
  if truthyQ st.current_q && !st.current_a.isEmpty then
    { st with pairs := st.pairs ++
        [{ question := pyStrip ((st.current_q).getD ""),
           answer := pyStrip (joinNL st.current_a),
           q_para_index := st.q_start_index }] }
  else if truthyQ st.current_q then
    { st with warnings := st.warnings + 1 }
  else st

/-- One iteration of the paragraph loop (lines 54-87) at index `i`. -/
def segStep (i : Nat) (st : SegState) (rawText : String) : SegState :=
  let text := pyStrip rawText
  if text = "" then st
  else
    match qMatch text with
    | some residual =>
      let st1 := finalizePair st
      { st1 with current_q := some residual, q_start_index := i,
                 current_a := [], is_parsing_answer := false }
    | none =>
      match aMatch text with
      | some residualA =>
        if truthyQ st.current_q then
          { st with
              current_a := if residualA != "" then st.current_a ++ [residualA] else st.current_a,
              is_parsing_answer := true }
        else st
      | none =>
        if truthyQ st.current_q then
          if st.is_parsing_answer then { st with current_a := st.current_a ++ [text] }
          else { st with current_q := some (((st.current_q).getD "") ++ "\n" ++ text) }
        else st

/-- Run the whole loop and the end-of-input finalization. -/
def segRun (texts : List String) : SegState :=
  finalizePair (texts.enum.foldl (fun st it => segStep it.1 st it.2) initSegState)

def segmentPairs (texts : List String) : List Pair :=
  (segRun texts).pairs

def segmentWarnings (texts : List String) : Nat :=
  (segRun texts).warnings

/-- A collected answer line: non-empty with a non-space first character
(every line the loop appends is a stripped non-empty string). -/
def GoodLine (s : String) : Prop :=
  ∃ c t, s.data = c :: t ∧ isPySpace c = false

/-- Invariant of the segmentation loop: all collected answer lines are good,
and every emitted pair carries a non-empty answer. -/
def SegInv (st : SegState) : Prop :=
  (∀ l ∈ st.current_a, GoodLine l) ∧ ∀ p ∈ st.pairs, p.answer ≠ ""

/-- Paragraph as read from the source document: text and alignment attribute
(`None` when unset). -/
structure Para where
  text : String
  alignment : Option Nat
deriving Repr, DecidableEq

/-- Whole-function model of `parse_qna_pairs`: `none` stands for an input the
document reader cannot decode (the `docx.Document` call raises); the
`except` clause returns `([], [])` (lines 100-105). -/
def parse_qna_pairs : Option (List Para) → List Pair × List Para
  | none => ([], [])
  | some paras => (segmentPairs (paras.map Para.text), paras)

/-! ### Headline Generator (`generate_headline`, src/backend.py lines 109-147) -/

/-- Outcome of the external model call: a response carrying its `.text`
(empty models a missing/blocked/empty text attribute) or a raised
exception. -/
inductive ModelOutcome where
  | response (text : String)
  | raises
deriving Repr, DecidableEq

/-- Python `s.replace(c, '')` for a single-character needle. -/
def removeChar (c : Char) (s : String) : String :=
  String.mk (s.data.filter (fun x => x != c))

/-- Body of `generate_headline`, parameterised by the model-call outcome.
Note the source function's parameters are exactly
(`question`, `answer`, `model_name`): there is no prompt-template
parameter; the prompt is a hard-coded f-string. -/
def generate_headline (question : String) (_answer : String) (_model_name : String)
    (o : ModelOutcome) : String :=
  match o with
  | .response t =>
    if t != "" then removeChar ('#') (removeChar ('*') (pyStrip t))
    else "خطأ في إنشاء عنوان للسؤال: " ++ pyTake 30 question ++ "... (استجابة فارغة أو محظورة)"
  | .raises => "خطأ في إنشاء عنوان للسؤال: " ++ pyTake 30 question ++ "... (خطأ API)"

/-- Parameter names of `def generate_headline(question, answer, model_name="gemini-1.5-flash")`. -/
def generate_headline_params : List String := ["question", "answer", "model_name"]

/-- Keyword arguments used at the call site in src/app.py lines 152-155. -/
def app_call_kwargs : List String := ["model_name", "prompt_template"]

/-- Python call semantics: a keyword argument whose name is not among the
callee's parameters raises `TypeError`. -/
def kwargsAccepted (params kwargs : List String) : Bool :=
  kwargs.all (fun k => params.contains k)

/-! ### App-side headline filtering (src/app.py lines 151-161)

The processing loop pairs each parsed Q&A record with the generated headline
string and keeps it only when the sentinel `خطأ` does not occur in it. -/

structure HPair where
  question : String
  answer : String
  q_para_index : Nat
  headline : String
deriving Repr, DecidableEq

def attachHeadlines (pairs : List Pair) (headlines : List String) : List HPair :=
  (pairs.zip headlines).filterMap fun ph =>
    if pyIn ("خطأ") ph.2 then none
    else some { question := ph.1.question, answer := ph.1.answer,
                q_para_index := ph.1.q_para_index, headline := ph.2 }

/-! ### Output document model

A reconstructed paragraph is its alignment attribute plus its styled runs
(the fields `create_modified_document` and `merge_documents` read and write);
`pageBreak` stands for the paragraph `add_page_break` appends. -/

structure Run where
  text : String
  bold : Option Bool
  italic : Option Bool
  underline : Option Bool
  size : Option Nat
  fontName : Option String
deriving Repr, DecidableEq

inductive DocElem where
  | para (alignment : Option Nat) (runs : List Run)
  | pageBreak
deriving Repr, DecidableEq

/-- `WD_PARAGRAPH_ALIGNMENT.RIGHT`. -/
def alignRight : Nat := 2

/-- Paragraph produced by `new_document.add_paragraph(original_para.text)`
followed by the alignment copy (src/backend.py lines 206-208 and 218-219):
one plain run when the text is non-empty, no run otherwise. -/
def copyElem (p : Para) : DocElem :=
  .para p.alignment
    (if p.text = "" then []
     else [{ text := p.text, bold := none, italic := none, underline := none,
             size := none, fontName := none }])

/-- Headline paragraph (lines 193-197): right-aligned, one bold run at
`Pt(14)`. -/
def headlinePara (h : String) : DocElem :=
  .para (some alignRight)
    [{ text := h, bold := some true, italic := none, underline := none,
       size := some 14, fontName := none }]

/-- Python dict built by successive assignment: a later binding overrides an
earlier one. -/
def dlookup {α : Type} : List (Nat × α) → Nat → Option α
  | [], _ => none
  | x :: t, k =>
    match dlookup t k with
    | some v => some v
    | none => if x.1 = k then some x.2 else none

/-- Sorting of the pair list: `sorted(qna_pairs_with_headlines, key=lambda
x: x['q_para_index'])` (line 177).  `insertionSort` with `≤` on the key
agrees with Python's stable sort on every list with distinct keys, which is
the only situation the source's callers produce. -/
def sortPairs (l : List HPair) : List HPair :=
  l.insertionSort (fun a b => a.q_para_index ≤ b.q_para_index)

/-- Range pre-calculation (lines 178-184): the sorted pairs give consecutive
entries `(start, next start or N)`. -/
def qnaRanges : List HPair → Nat → List (Nat × Nat)
  | [], _ => []
  | [p], n => [(p.q_para_index, n)]
  | p :: q :: rest, n => (p.q_para_index, q.q_para_index) :: qnaRanges (q :: rest) n

/-- Membership in `processed_para_indices` (lines 185-186): some range
contains the index. -/
def isProcessed (ranges : List (Nat × Nat)) (j : Nat) : Bool :=
  ranges.any fun r => r.1 ≤ j && j < r.2

/-- Copy loop body, structurally recursive on the number of paragraphs the
Python `range(a, b)` still has to visit. -/
def copyRangeAux (paras : List Para) : Nat → Nat → Option (List DocElem)
  | _, 0 => some []
  | a, k + 1 =>
    match paras[a]? with
    | none => none
    | some p =>
      match copyRangeAux paras (a + 1) k with
      | none => none
      | some rest => some (copyElem p :: rest)

/-- Copy `original_paragraphs[a:b]` one paragraph at a time (lines 202-208);
`none` models the `IndexError` raised when `b` exceeds the list. -/
def copyRange (paras : List Para) (a b : Nat) : Option (List DocElem) :=
  copyRangeAux paras a (b - a)

/-- The `while para_index < len(original_paragraphs)` loop (lines 188-222).
The fuel argument only rules out the non-terminating executions that Python
would also never complete; every actual call is made with enough fuel.
`none` models an exception propagating to the handler (missing dict key or
index out of range). -/
def buildDoc (paras : List Para) (hmap : List (Nat × String))
    (ranges : List (Nat × Nat)) : Nat → Nat → Option (List DocElem)
  | 0, _ => none
  | fuel + 1, idx =>
    if h : idx < paras.length then
      match dlookup hmap idx with
      | some htext =>
        match dlookup ranges idx with
        | some endIdx =>
          match copyRange paras idx endIdx with
          | some copied =>
            match buildDoc paras hmap ranges fuel endIdx with
            | some rest => some (headlinePara htext :: (copied ++ rest))
            | none => none
          | none => none
        | none => none
      | none =>
        if isProcessed ranges idx then buildDoc paras hmap ranges fuel (idx + 1)
        else
          match buildDoc paras hmap ranges fuel (idx + 1) with
          | some rest => some (copyElem paras[idx] :: rest)
          | none => none
    else some []

/-- Whole-function model of `create_modified_document` (lines 152-229). -/
def create_modified_document (paras : List Para) (hpairs : List HPair) :
    Option (List DocElem) :=
  let sorted := sortPairs hpairs
  let ranges := qnaRanges sorted paras.length
  let hmap := hpairs.map fun p => (p.q_para_index, p.headline)
  buildDoc paras hmap ranges (paras.length + 1) 0

/-! ### Document Merger (`merge_documents`, src/backend.py lines 234-298) -/

/-- Copy of one run (lines 276-282): text, bold, italic, underline, size and
font name are all transferred, which on the modelled fields is the identity. -/
def copyRun (r : Run) : Run :=
  { text := r.text, bold := r.bold, italic := r.italic, underline := r.underline,
    size := r.size, fontName := r.fontName }

/-- Copy of one paragraph (lines 267-282): alignment plus all runs. -/
def copyPara : DocElem → DocElem
  | .para a runs => .para a (runs.map copyRun)
  | .pageBreak => .pageBreak

/-- The merge loop with its `first_doc` flag (lines 255-286); `none` entries
are skipped. -/
def mergeLoop : List (Option (List DocElem)) → Bool → List DocElem
  | [], _ => []
  | none :: rest, first => mergeLoop rest first
  | some d :: rest, first =>
    (if first then [] else [DocElem.pageBreak]) ++ d.map copyPara ++ mergeLoop rest false

def merge_documents (docs : List (Option (List DocElem))) : List DocElem :=
  mergeLoop docs true

/-! ### Statement-side recombinators

`copiesSlice`, `assembleFrom` and `joinWithBreaks` describe reassembled and
merged documents directly; the theorems below relate the source-translated
functions to them. -/

/-- Copies of the original paragraphs with indices in `[a, b)`. -/
def copiesSlice (paras : List Para) (a b : Nat) : List DocElem :=
  (((paras.drop a).take (b - a)).map copyElem)

/-- Start index of the first pair of a list, or `n` when there is none:
this is both the end of the range owned by the preceding pair and the
position where the reassembly scan meets the next headline. -/
def firstStart (l : List HPair) (n : Nat) : Nat :=
  match l with
  | [] => n
  | p :: _ => p.q_para_index

/-- Expected reassembly from position `idx` on, given the pairs whose ranges
lie at or beyond `idx` in ascending start order. -/
def assembleFrom (paras : List Para) : List HPair → Nat → List DocElem
  | [], idx => copiesSlice paras idx paras.length
  | p :: rest, idx =>
    copiesSlice paras idx p.q_para_index ++
      (headlinePara p.headline ::
        copiesSlice paras p.q_para_index (firstStart rest paras.length)) ++
      assembleFrom paras rest (firstStart rest paras.length)

/-- Included documents joined with exactly one page break between two
consecutive ones. -/
def joinWithBreaks : List (List DocElem) → List DocElem
  | [] => []
  | [d] => d
  | d :: rest => d ++ DocElem.pageBreak :: joinWithBreaks rest

/-- Recogniser for synthesized headline paragraphs in an output document:
they are the only paragraphs carrying a bold run. -/
def isHeadlineElem : DocElem → Bool
  | .para _ runs => runs.any fun r => r.bold == some true
  | .pageBreak => false

/-- Text of a reconstructed paragraph, as python-docx reports it: the
concatenation of its runs' texts. -/
def elemText : DocElem → String
  | .para _ runs => String.join (runs.map Run.text)
  | .pageBreak => ""

/-- Alignment attribute of a reconstructed paragraph. -/
def elemAlign : DocElem → Option Nat
  | .para a _ => a
  | .pageBreak => none

/-- Caller's handling of the parse result (src/app.py lines 140-143): the
file is skipped (warning, no headline generation) exactly when the returned
pair list is empty. -/
def callerSkipsFile (res : List Pair × List Para) : Bool :=
  res.1.isEmpty

/-! ## Helper lemmas -/

theorem isPrefixOf_append_self (l m : List Char) : l.isPrefixOf (l ++ m) = true := by
  induction l with
  | nil => simp [List.isPrefixOf]
  | cons c t ih => simp [List.isPrefixOf, ih]

theorem listContains_append_self (n m : List Char) : listContains n (n ++ m) = true := by
  cases n with
  | nil =>
    cases m with
    | nil => simp [listContains]
    | cons c t => simp [listContains, List.isPrefixOf]
  | cons c t => simp [listContains, isPrefixOf_append_self]

/-- The sentinel occurs in any string that starts with it. -/
theorem pyIn_of_data_eq (needle hay : String) (tail : List Char)
    (h : hay.data = needle.data ++ tail) : pyIn needle hay = true := by
  unfold pyIn
  rw [h]
  exact listContains_append_self _ _

theorem copyRun_eq : copyRun = id :=
  funext fun _ => rfl

theorem copyPara_eq (e : DocElem) : copyPara e = e := by
  cases e with
  | para a runs => simp [copyPara, copyRun_eq]
  | pageBreak => rfl

theorem map_copyPara (l : List DocElem) : l.map copyPara = l := by
  simp [show copyPara = id from funext copyPara_eq]

/-- Behaviour of the merge loop once a first document has been emitted. -/
theorem mergeLoop_false (docs : List (Option (List DocElem))) :
    mergeLoop docs false =
      if (docs.filterMap id).isEmpty then []
      else DocElem.pageBreak :: joinWithBreaks (docs.filterMap id) := by
  induction docs with
  | nil => rfl
  | cons d rest ih =>
    cases d with
    | none => simpa [mergeLoop] using ih
    | some l =>
      simp only [mergeLoop, List.filterMap_cons, id, map_copyPara]
      rw [ih]
      cases h : (rest.filterMap id) with
      | nil => simp [joinWithBreaks]
      | cons x xs => simp [joinWithBreaks]

theorem merge_documents_eq (docs : List (Option (List DocElem))) :
    merge_documents docs = joinWithBreaks (docs.filterMap id) := by
  unfold merge_documents
  induction docs with
  | nil => rfl
  | cons d rest ih =>
    cases d with
    | none => simpa [mergeLoop] using ih
    | some l =>
      simp only [mergeLoop, List.filterMap_cons, id, map_copyPara]
      rw [mergeLoop_false]
      cases h : (rest.filterMap id) with
      | nil => simp [joinWithBreaks]
      | cons x xs => simp [joinWithBreaks]

/-! ### Dict and range lemmas -/

theorem dlookup_eq_none {α : Type} (m : List (Nat × α)) (k : Nat)
    (h : ∀ x ∈ m, x.1 ≠ k) : dlookup m k = none := by
  induction m with
  | nil => rfl
  | cons x t ih =>
    have hx := h x (List.mem_cons_self x t)
    have ht := ih fun y hy => h y (List.mem_cons_of_mem x hy)
    simp [dlookup, ht, if_neg hx]

theorem dlookup_mem {α : Type} (m : List (Nat × α)) (k : Nat) (v : α)
    (hmem : (k, v) ∈ m) (hnd : (m.map Prod.fst).Nodup) : dlookup m k = some v := by
  induction m with
  | nil => simp at hmem
  | cons x t ih =>
    rw [List.map_cons, List.nodup_cons] at hnd
    rcases List.mem_cons.mp hmem with h | h
    · subst h
      have : dlookup t k = none := by
        apply dlookup_eq_none
        intro y hy hk
        apply hnd.1
        have hm : y.1 ∈ t.map Prod.fst := List.mem_map_of_mem Prod.fst hy
        rwa [hk] at hm
      simp [dlookup, this]
    · simp [dlookup, ih h hnd.2]

theorem dlookup_some_mem {α : Type} (m : List (Nat × α)) (k : Nat) (v : α)
    (h : dlookup m k = some v) : (k, v) ∈ m := by
  induction m with
  | nil => simp [dlookup] at h
  | cons x t ih =>
    rw [dlookup] at h
    rcases ht : dlookup t k with _ | w
    · rw [ht] at h
      by_cases hk : x.1 = k
      · rw [if_pos hk] at h
        have : x = (k, v) := by
          cases x
          simp at hk h
          simp [hk, h]
        exact this ▸ List.mem_cons_self x t
      · rw [if_neg hk] at h
        simp at h
    · rw [ht] at h
      obtain rfl : w = v := by simpa using h
      exact List.mem_cons_of_mem x (ih ht)

theorem qnaRanges_cons_ne (a : HPair) (l : List HPair) (n : Nat) (h : l ≠ []) :
    qnaRanges (a :: l) n = (a.q_para_index, firstStart l n) :: qnaRanges l n := by
  cases l with
  | nil => exact absurd rfl h
  | cons q r => rfl

theorem qnaRanges_map_fst (S : List HPair) (n : Nat) :
    (qnaRanges S n).map Prod.fst = S.map fun p => p.q_para_index := by
  induction S with
  | nil => rfl
  | cons p rest ih =>
    cases rest with
    | nil => rfl
    | cons q rest2 =>
      rw [qnaRanges_cons_ne p (q :: rest2) n (by simp)]
      simpa using ih

theorem qnaRanges_entry (n : Nat) (pre : List HPair) (p : HPair) (rest : List HPair) :
    (p.q_para_index, firstStart rest n) ∈ qnaRanges (pre ++ p :: rest) n := by
  induction pre with
  | nil =>
    cases rest with
    | nil => simp [qnaRanges, firstStart]
    | cons q rest2 => simp [qnaRanges, firstStart]
  | cons a pre2 ih =>
    rw [List.cons_append, qnaRanges_cons_ne a (pre2 ++ p :: rest) n (by simp)]
    exact List.mem_cons_of_mem _ ih

theorem qnaRanges_hi_le (S : List HPair) (n : Nat)
    (h : ∀ p ∈ S, p.q_para_index < n) :
    ∀ r ∈ qnaRanges S n, r.2 ≤ n := by
  induction S with
  | nil => simp [qnaRanges]
  | cons p rest ih =>
    cases rest with
    | nil =>
      intro r hr
      simp [qnaRanges] at hr
      simp [hr]
    | cons q rest2 =>
      intro r hr
      rw [qnaRanges_cons_ne p (q :: rest2) n (by simp)] at hr
      rcases List.mem_cons.mp hr with h1 | h1
      · subst h1
        exact Nat.le_of_lt (h q (by simp) )
      · exact ih (fun x hx => h x (List.mem_cons_of_mem p hx)) r h1

theorem qnaRanges_overlap (S : List HPair) (n : Nat)
    (hp : S.Pairwise fun a b => a.q_para_index < b.q_para_index) :
    ∀ r ∈ qnaRanges S n, ∀ p ∈ S, r.1 < p.q_para_index → r.2 ≤ p.q_para_index := by
  induction S with
  | nil => simp [qnaRanges]
  | cons p0 rest ih =>
    rw [List.pairwise_cons] at hp
    cases rest with
    | nil =>
      intro r hr p hmem hlt
      simp [qnaRanges] at hr
      rcases List.mem_singleton.mp hmem with rfl
      subst hr
      simp at hlt
    | cons q0 rest2 =>
      intro r hr p hmem hlt
      rw [qnaRanges_cons_ne p0 (q0 :: rest2) n (by simp)] at hr
      rcases List.mem_cons.mp hr with h1 | h1
      · subst h1
        rcases List.mem_cons.mp hmem with rfl | h2
        · exact absurd hlt (Nat.lt_irrefl _)
        · rcases List.mem_cons.mp h2 with rfl | h3
          · exact Nat.le_refl _
          · exact Nat.le_of_lt ((List.pairwise_cons.mp hp.2).1 p h3)
      · rcases List.mem_cons.mp hmem with rfl | h2
        · have : r.1 ∈ (qnaRanges (q0 :: rest2) n).map Prod.fst :=
            List.mem_map_of_mem Prod.fst h1
          rw [qnaRanges_map_fst] at this
          obtain ⟨x, hx, hx2⟩ := List.mem_map.mp this
          have : p.q_para_index < r.1 := hx2 ▸ hp.1 x hx
          omega
        · exact ih hp.2 r h1 p h2 hlt

theorem isProcessed_lt (ranges : List (Nat × Nat)) (j : Nat)
    (h : ∀ r ∈ ranges, j < r.1) : isProcessed ranges j = false := by
  rw [isProcessed, List.any_eq_false]
  intro r hr
  have := h r hr
  simp
  omega

theorem isProcessed_mem (ranges : List (Nat × Nat)) (j : Nat)
    (h : isProcessed ranges j = true) : ∃ r ∈ ranges, r.1 ≤ j ∧ j < r.2 := by
  rw [isProcessed, List.any_eq_true] at h
  obtain ⟨r, hr, hj⟩ := h
  exact ⟨r, hr, by simpa using hj⟩

/-! ### Slice lemmas -/

theorem copiesSlice_empty (paras : List Para) (a b : Nat) (h : b ≤ a) :
    copiesSlice paras a b = [] := by
  unfold copiesSlice
  rw [Nat.sub_eq_zero_of_le h]
  simp

theorem copiesSlice_cons (paras : List Para) (a b : Nat) (h1 : a < b)
    (h2 : a < paras.length) :
    copiesSlice paras a b = copyElem paras[a] :: copiesSlice paras (a + 1) b := by
  unfold copiesSlice
  rw [List.drop_eq_getElem_cons h2, show b - a = (b - (a + 1)) + 1 by omega,
    List.take_succ_cons, List.map_cons]

theorem copiesSlice_append (paras : List Para) (a b c : Nat) (h1 : a ≤ b) (h2 : b ≤ c) :
    copiesSlice paras a b ++ copiesSlice paras b c = copiesSlice paras a c := by
  unfold copiesSlice
  rw [← List.map_append]
  congr 1
  rw [show paras.drop b = (paras.drop a).drop (b - a) by
    rw [List.drop_drop]; congr 1; omega]
  rw [← List.take_add]
  congr 1
  omega

theorem copiesSlice_full (paras : List Para) :
    copiesSlice paras 0 paras.length = paras.map copyElem := by
  unfold copiesSlice
  simp

theorem copyRangeAux_eq (paras : List Para) :
    ∀ (k a : Nat), a + k ≤ paras.length →
      copyRangeAux paras a k = some (copiesSlice paras a (a + k)) := by
  intro k
  induction k with
  | zero =>
    intro a _
    rw [copyRangeAux, copiesSlice_empty paras a (a + 0) (by omega)]
  | succ k ih =>
    intro a ha
    rw [copyRangeAux]
    simp only [List.getElem?_eq_getElem (by omega : a < paras.length),
      ih (a + 1) (by omega)]
    rw [copiesSlice_cons paras a (a + (k + 1)) (by omega) (by omega)]
    rw [show a + 1 + k = a + (k + 1) by omega]

theorem copyRange_eq_slice (paras : List Para) (a b : Nat) (hb : b ≤ paras.length) :
    copyRange paras a b = some (copiesSlice paras a b) := by
  unfold copyRange
  by_cases hab : a ≤ b
  · rw [copyRangeAux_eq paras (b - a) a (by omega)]
    rw [show a + (b - a) = b by omega]
  · rw [show b - a = 0 by omega, copyRangeAux,
      copiesSlice_empty paras a b (by omega)]

theorem copyRange_elems (paras : List Para) :
    ∀ (k a : Nat) (copied : List DocElem),
      copyRangeAux paras a k = some copied → ∀ e ∈ copied, ∃ p, e = copyElem p := by
  intro k
  induction k with
  | zero =>
    intro a copied hc
    rw [copyRangeAux] at hc
    obtain rfl : ([] : List DocElem) = copied := by simpa using hc
    simp
  | succ k ih =>
    intro a copied hc
    rw [copyRangeAux] at hc
    cases hpa : paras[a]? with
    | none => simp only [hpa] at hc; simp at hc
    | some p =>
      simp only [hpa] at hc
      cases hrec : copyRangeAux paras (a + 1) k with
      | none => simp only [hrec] at hc; simp at hc
      | some rest =>
        simp only [hrec] at hc
        obtain rfl : copyElem p :: rest = copied := by simpa using hc
        intro e he
        rcases List.mem_cons.mp he with rfl | he2
        · exact ⟨p, rfl⟩
        · exact ih (a + 1) rest hrec e he2

/-! ### Headline/copy element recognition -/

theorem isHeadlineElem_copyElem (p : Para) : isHeadlineElem (copyElem p) = false := by
  unfold copyElem isHeadlineElem
  by_cases h : p.text = "" <;> simp [h]

theorem isHeadlineElem_headlinePara (h : String) :
    isHeadlineElem (headlinePara h) = true := rfl

/-! ### Stripped-line facts for the segmenter invariant -/

theorem dropWhile_head_false (p : Char → Bool) :
    ∀ (l : List Char) (c : Char) (t : List Char),
      l.dropWhile p = c :: t → p c = false := by
  intro l
  induction l with
  | nil => intro c t h; simp [List.dropWhile] at h
  | cons a l ih =>
    intro c t h
    rw [List.dropWhile_cons] at h
    by_cases hpa : p a = true
    · rw [if_pos hpa] at h
      exact ih c t h
    · rw [if_neg hpa] at h
      obtain ⟨rfl, -⟩ : a = c ∧ l = t := by simpa using h
      simpa using hpa

theorem trimChars_extends (l : List Char) :
    ∃ s, trimChars l ++ s = l.dropWhile isPySpace := by
  unfold trimChars
  obtain ⟨s, hs⟩ : ∃ s, s ++ (l.dropWhile isPySpace).reverse.dropWhile isPySpace =
      (l.dropWhile isPySpace).reverse := List.dropWhile_suffix _
  refine ⟨s.reverse, ?_⟩
  have h2 := congrArg List.reverse hs
  rwa [List.reverse_append, List.reverse_reverse] at h2

theorem trimChars_head (l : List Char) (c : Char) (t : List Char)
    (h : trimChars l = c :: t) : isPySpace c = false := by
  obtain ⟨s, hs⟩ := trimChars_extends l
  rw [h] at hs
  have hd : l.dropWhile isPySpace = c :: (t ++ s) := by
    rw [← hs]; simp
  exact dropWhile_head_false isPySpace l c (t ++ s) hd

theorem trimChars_ne_nil (c : Char) (t : List Char) (h : isPySpace c = false) :
    trimChars (c :: t) ≠ [] := by
  unfold trimChars
  intro hcontra
  have h1 : (c :: t).dropWhile isPySpace = c :: t := by
    rw [List.dropWhile_cons, if_neg (by simp [h])]
  rw [h1] at hcontra
  have h2 : (c :: t).reverse.dropWhile isPySpace = [] := by
    have h3 := congrArg List.reverse hcontra
    rwa [List.reverse_reverse, List.reverse_nil] at h3
  have h4 := List.dropWhile_eq_nil_iff.mp h2 c (by simp)
  rw [h] at h4
  simp at h4

theorem pyStrip_good (s : String) (h : pyStrip s ≠ "") : GoodLine (pyStrip s) := by
  have hdata : (pyStrip s).data = trimChars s.data := rfl
  cases hd : trimChars s.data with
  | nil =>
    exfalso
    apply h
    apply String.ext
    rw [hdata, hd]
  | cons c t => exact ⟨c, t, by rw [hdata, hd], trimChars_head s.data c t hd⟩

theorem joinNL_good (x : String) (rest : List String) (hx : GoodLine x) :
    pyStrip (joinNL (x :: rest)) ≠ "" := by
  obtain ⟨c, t, hdata, hws⟩ := hx
  have hjoin : ∃ T, (joinNL (x :: rest)).data = c :: T := by
    cases rest with
    | nil => exact ⟨t, by rw [show joinNL [x] = x from rfl, hdata]⟩
    | cons y rest2 =>
      refine ⟨t ++ (("\n").data ++ (joinNL (y :: rest2)).data), ?_⟩
      rw [show joinNL (x :: y :: rest2) = x ++ "\n" ++ joinNL (y :: rest2) from rfl]
      rw [String.data_append, String.data_append, hdata]
      simp
  obtain ⟨T, hT⟩ := hjoin
  intro hcontra
  have hnil : trimChars (c :: T) = [] := by
    have h5 : (pyStrip (joinNL (x :: rest))).data = ("").data :=
      congrArg String.data hcontra
    rw [show (pyStrip (joinNL (x :: rest))).data =
      trimChars (joinNL (x :: rest)).data from rfl, hT] at h5
    simpa using h5
  exact trimChars_ne_nil c T hws hnil

theorem aMatch_residual (s r : String) (h : aMatch s = some r) :
    ∃ u, r = pyStrip u := by
  unfold aMatch at h
  cases hm : markerMatchCs (aTokens.map String.data) s.data with
  | none => rw [hm] at h; simp at h
  | some l =>
    rw [hm] at h
    exact ⟨String.mk l, by simpa using h.symm⟩

theorem segInv_finalize (st : SegState) (h : SegInv st) : SegInv (finalizePair st) := by
  unfold finalizePair
  by_cases h1 : (truthyQ st.current_q && !st.current_a.isEmpty) = true
  · rw [if_pos h1]
    refine ⟨h.1, ?_⟩
    intro p hp
    rcases List.mem_append.mp hp with hp2 | hp2
    · exact h.2 p hp2
    · have hp3 := List.mem_singleton.mp hp2
      subst hp3
      have hne : st.current_a ≠ [] := by
        intro hnil
        rw [hnil] at h1
        simp at h1
      obtain ⟨x, rest, hx⟩ : ∃ x rest, st.current_a = x :: rest := by
        cases hca : st.current_a with
        | nil => exact absurd hca hne
        | cons x r => exact ⟨x, r, rfl⟩
      show pyStrip (joinNL st.current_a) ≠ ""
      rw [hx]
      exact joinNL_good x rest (h.1 x (by rw [hx]; simp))
  · rw [if_neg h1]
    by_cases h2 : truthyQ st.current_q = true
    · rw [if_pos h2]; exact h
    · rw [if_neg h2]; exact h

theorem segInv_step (i : Nat) (st : SegState) (raw : String) (h : SegInv st) :
    SegInv (segStep i st raw) := by
  by_cases ht : pyStrip raw = ""
  · simp only [segStep]
    rw [if_pos ht]
    exact h
  · simp only [segStep]
    rw [if_neg ht]
    cases hq : qMatch (pyStrip raw) with
    | some residual =>
      simp only [hq]
      exact ⟨by simp, (segInv_finalize st h).2⟩
    | none =>
      simp only [hq]
      cases ha : aMatch (pyStrip raw) with
      | some residualA =>
        simp only [ha]
        by_cases htq : truthyQ st.current_q = true
        · rw [if_pos htq]
          refine ⟨?_, h.2⟩
          by_cases hra : (residualA != "") = true
          · rw [if_pos hra]
            intro l hl
            rcases List.mem_append.mp hl with hl2 | hl2
            · exact h.1 l hl2
            · have hl3 := List.mem_singleton.mp hl2
              subst hl3
              obtain ⟨u, rfl⟩ := aMatch_residual _ _ ha
              exact pyStrip_good u (by simpa using hra)
          · rw [if_neg hra]
            exact h.1
        · rw [if_neg htq]; exact h
      | none =>
        simp only [ha]
        by_cases htq : truthyQ st.current_q = true
        · rw [if_pos htq]
          by_cases hpa : st.is_parsing_answer = true
          · rw [if_pos hpa]
            refine ⟨?_, h.2⟩
            intro l hl
            rcases List.mem_append.mp hl with hl2 | hl2
            · exact h.1 l hl2
            · have hl3 := List.mem_singleton.mp hl2
              subst hl3
              exact pyStrip_good raw ht
          · rw [if_neg hpa]
            exact ⟨h.1, h.2⟩
        · rw [if_neg htq]; exact h

theorem segInv_run (texts : List String) : SegInv (segRun texts) := by
  unfold segRun
  have haux : ∀ (l : List (Nat × String)) (st : SegState), SegInv st →
      SegInv (l.foldl (fun s it => segStep it.1 s it.2) st) := by
    intro l
    induction l with
    | nil => intro st h; exact h
    | cons x t ih => intro st h; exact ih _ (segInv_step x.1 st x.2 h)
  exact segInv_finalize _ (haux _ _ ⟨by simp [initSegState], by simp [initSegState]⟩)

/-! ### Sorting facts -/

instance : IsTotal HPair fun a b => a.q_para_index ≤ b.q_para_index :=
  ⟨fun x y => Nat.le_total x.q_para_index y.q_para_index⟩

instance : IsTrans HPair fun a b => a.q_para_index ≤ b.q_para_index :=
  ⟨fun _ _ _ => Nat.le_trans⟩

theorem sortPairs_perm (l : List HPair) : (sortPairs l).Perm l :=
  List.perm_insertionSort _ l

theorem sortPairs_sorted (l : List HPair) :
    (sortPairs l).Pairwise fun a b => a.q_para_index ≤ b.q_para_index :=
  List.sorted_insertionSort _ l

theorem sortPairs_strict (l : List HPair)
    (hnd : (l.map fun p => p.q_para_index).Nodup) :
    (sortPairs l).Pairwise fun a b => a.q_para_index < b.q_para_index := by
  have hperm := sortPairs_perm l
  have hnd2 : ((sortPairs l).map fun p => p.q_para_index).Nodup :=
    ((hperm.map _).nodup_iff).mpr hnd
  have hne : (sortPairs l).Pairwise fun a b => a.q_para_index ≠ b.q_para_index :=
    List.pairwise_map.mp hnd2
  exact ((sortPairs_sorted l).and hne).imp fun h => Nat.lt_of_le_of_ne h.1 h.2

theorem strict_nodup_keys (S : List HPair)
    (hasc : S.Pairwise fun a b => a.q_para_index < b.q_para_index) :
    (S.map fun p => p.q_para_index).Nodup :=
  List.pairwise_map.mpr (hasc.imp fun h => Nat.ne_of_lt h)

/-! ### Reassembly loop characterization -/

theorem buildDoc_chain (paras : List Para) (hpairs S : List HPair)
    (hperm : S.Perm hpairs)
    (hasc : S.Pairwise fun a b => a.q_para_index < b.q_para_index)
    (hin : ∀ p ∈ S, p.q_para_index < paras.length) :
    ∀ (suffix pre : List HPair), S = pre ++ suffix →
      ∀ fuel : Nat, paras.length + 1 ≤ fuel + firstStart suffix paras.length →
        buildDoc paras (hpairs.map fun x => (x.q_para_index, x.headline))
            (qnaRanges S paras.length) fuel (firstStart suffix paras.length) =
          some (assembleFrom paras suffix (firstStart suffix paras.length)) := by
  intro suffix
  induction suffix with
  | nil =>
    intro pre hS fuel hfuel
    simp only [firstStart] at hfuel ⊢
    cases fuel with
    | zero => omega
    | succ f =>
      rw [buildDoc, dif_neg (by omega : ¬paras.length < paras.length)]
      rw [assembleFrom, copiesSlice_empty _ _ _ (Nat.le_refl _)]
  | cons p rest ih =>
    intro pre hS fuel hfuel
    have hpmem : p ∈ S := by
      rw [hS]; exact List.mem_append_right _ (List.mem_cons_self _ _)
    have hidx : p.q_para_index < paras.length := hin p hpmem
    have hndS : (S.map fun x => x.q_para_index).Nodup := strict_nodup_keys S hasc
    have hndH : (hpairs.map fun x => x.q_para_index).Nodup :=
      ((hperm.map _).nodup_iff).mp hndS
    have he_le : firstStart rest paras.length ≤ paras.length := by
      cases rest with
      | nil => simp [firstStart]
      | cons q r2 =>
        refine Nat.le_of_lt (hin q ?_)
        rw [hS]
        exact List.mem_append_right _ (by simp)
    have hpe : p.q_para_index < firstStart rest paras.length := by
      cases rest with
      | nil => simpa [firstStart] using hidx
      | cons q r2 =>
        have hsub : (p :: q :: r2).Pairwise
            (fun a b => a.q_para_index < b.q_para_index) := by
          refine List.Pairwise.sublist ?_ hasc
          rw [hS]
          exact List.sublist_append_right pre _
        simpa [firstStart] using (List.pairwise_cons.mp hsub).1 q (by simp)
    simp only [firstStart] at hfuel ⊢
    cases fuel with
    | zero => omega
    | succ f =>
      have hm : dlookup (hpairs.map fun x => (x.q_para_index, x.headline))
          p.q_para_index = some p.headline := by
        apply dlookup_mem
        · exact List.mem_map_of_mem _ (hperm.subset hpmem)
        · rw [List.map_map]
          exact hndH
      have hr : dlookup (qnaRanges S paras.length) p.q_para_index =
          some (firstStart rest paras.length) := by
        apply dlookup_mem
        · rw [hS]; exact qnaRanges_entry paras.length pre p rest
        · rw [qnaRanges_map_fst]; exact hndS
      have hcopy := copyRange_eq_slice paras p.q_para_index
        (firstStart rest paras.length) he_le
      have hrec := ih (pre ++ [p]) (by rw [hS]; simp) f (by omega)
      rw [buildDoc, dif_pos hidx]
      simp only [hm, hr, hcopy, hrec]
      rw [assembleFrom, copiesSlice_empty paras _ _ (Nat.le_refl _)]
      simp

theorem buildDoc_ramp (paras : List Para) (hpairs S : List HPair)
    (hperm : S.Perm hpairs)
    (hasc : S.Pairwise fun a b => a.q_para_index < b.q_para_index)
    (hin : ∀ p ∈ S, p.q_para_index < paras.length) :
    ∀ (d fuel idx : Nat), paras.length + 1 ≤ fuel + idx →
      idx + d = firstStart S paras.length →
      buildDoc paras (hpairs.map fun x => (x.q_para_index, x.headline))
          (qnaRanges S paras.length) fuel idx =
        some (assembleFrom paras S idx) := by
  intro d
  induction d with
  | zero =>
    intro fuel idx hfuel hidx
    rw [Nat.add_zero] at hidx
    subst hidx
    exact buildDoc_chain paras hpairs S hperm hasc hin S [] rfl fuel hfuel
  | succ d ih =>
    intro fuel idx hfuel hidx
    have hbound : firstStart S paras.length ≤ paras.length := by
      cases S with
      | nil => simp [firstStart]
      | cons p tl => exact Nat.le_of_lt (hin p (by simp))
    have hidxN : idx < paras.length := by omega
    have hstarts : ∀ p ∈ S, idx < p.q_para_index := by
      cases S with
      | nil => simp
      | cons p0 tl =>
        intro p hp
        rcases List.mem_cons.mp hp with rfl | hp2
        · simp only [firstStart] at hidx; omega
        · have h0 : p0.q_para_index < p.q_para_index :=
            (List.pairwise_cons.mp hasc).1 p hp2
          simp only [firstStart] at hidx; omega
    cases fuel with
    | zero => omega
    | succ f =>
      have hm : dlookup (hpairs.map fun x => (x.q_para_index, x.headline)) idx = none := by
        apply dlookup_eq_none
        intro x hx
        obtain ⟨p, hp, rfl⟩ := List.mem_map.mp hx
        exact Nat.ne_of_gt (hstarts p (hperm.mem_iff.mpr hp))
      have hproc : isProcessed (qnaRanges S paras.length) idx = false := by
        apply isProcessed_lt
        intro r hr
        have : r.1 ∈ (qnaRanges S paras.length).map Prod.fst :=
          List.mem_map_of_mem Prod.fst hr
        rw [qnaRanges_map_fst] at this
        obtain ⟨p, hp, hpq⟩ := List.mem_map.mp this
        exact hpq ▸ hstarts p hp
      have hrec := ih f (idx + 1) (by omega) (by omega)
      have hstep : assembleFrom paras S idx =
          copyElem paras[idx] :: assembleFrom paras S (idx + 1) := by
        cases S with
        | nil =>
          rw [assembleFrom, assembleFrom]
          exact copiesSlice_cons paras idx paras.length hidxN hidxN
        | cons p tl =>
          rw [assembleFrom, assembleFrom]
          rw [copiesSlice_cons paras idx p.q_para_index
            (hstarts p (by simp)) hidxN]
          simp
      rw [buildDoc, dif_pos hidxN]
      simp only [hm, hproc, hrec]
      simp [hstep]

/-- The whole reassembly, for any pair list with distinct in-range starts,
produces exactly the interleaving described by `assembleFrom` on the sorted
pair list. -/
theorem create_modified_document_eq (paras : List Para) (hpairs : List HPair)
    (hnd : (hpairs.map fun p => p.q_para_index).Nodup)
    (hin : ∀ p ∈ hpairs, p.q_para_index < paras.length) :
    create_modified_document paras hpairs =
      some (assembleFrom paras (sortPairs hpairs) 0) := by
  have hperm := sortPairs_perm hpairs
  have hasc := sortPairs_strict hpairs hnd
  have hinS : ∀ p ∈ sortPairs hpairs, p.q_para_index < paras.length :=
    fun p hp => hin p (hperm.subset hp)
  show buildDoc paras (hpairs.map fun p => (p.q_para_index, p.headline))
      (qnaRanges (sortPairs hpairs) paras.length) (paras.length + 1) 0 = _
  exact buildDoc_ramp paras hpairs (sortPairs hpairs) hperm hasc hinS
    (firstStart (sortPairs hpairs) paras.length) (paras.length + 1) 0
    (by omega) (by omega)

/-! ### Erasure and placement of headlines in the assembled output -/

theorem filter_copiesSlice (paras : List Para) (a b : Nat) :
    (copiesSlice paras a b).filter (fun e => !isHeadlineElem e) =
      copiesSlice paras a b := by
  apply List.filter_eq_self.mpr
  intro e he
  unfold copiesSlice at he
  obtain ⟨p, _, rfl⟩ := List.mem_map.mp he
  simp [isHeadlineElem_copyElem]

theorem assembleFrom_filter (paras : List Para) :
    ∀ (S : List HPair) (idx : Nat),
      (S.Pairwise fun a b => a.q_para_index < b.q_para_index) →
      (∀ p ∈ S, p.q_para_index < paras.length) →
      idx ≤ firstStart S paras.length →
      (assembleFrom paras S idx).filter (fun e => !isHeadlineElem e) =
        copiesSlice paras idx paras.length := by
  intro S
  induction S with
  | nil =>
    intro idx _ _ _
    rw [assembleFrom]
    exact filter_copiesSlice paras idx paras.length
  | cons p rest ih =>
    intro idx hasc hin hle
    have hpq : idx ≤ p.q_para_index := by simpa [firstStart] using hle
    have hpN : p.q_para_index < paras.length := hin p (by simp)
    have he_le : firstStart rest paras.length ≤ paras.length := by
      cases rest with
      | nil => simp [firstStart]
      | cons q r2 => exact Nat.le_of_lt (hin q (by simp))
    have hpe : p.q_para_index ≤ firstStart rest paras.length := by
      cases rest with
      | nil => simpa [firstStart] using Nat.le_of_lt hpN
      | cons q r2 =>
        simpa [firstStart] using
          Nat.le_of_lt ((List.pairwise_cons.mp hasc).1 q (by simp))
    rw [assembleFrom, List.filter_append, List.filter_append, List.filter_cons]
    rw [if_neg (by simp [isHeadlineElem_headlinePara] :
      ¬((!isHeadlineElem (headlinePara p.headline)) = true))]
    rw [ih (firstStart rest paras.length) (List.pairwise_cons.mp hasc).2
      (fun q hq => hin q (List.mem_cons_of_mem p hq)) (Nat.le_refl _)]
    rw [filter_copiesSlice, filter_copiesSlice]
    rw [copiesSlice_append paras idx p.q_para_index (firstStart rest paras.length)
      hpq hpe]
    rw [copiesSlice_append paras idx (firstStart rest paras.length) paras.length
      (Nat.le_trans hpq hpe) he_le]

theorem assembleFrom_position (paras : List Para) :
    ∀ (S : List HPair) (idx : Nat),
      (S.Pairwise fun a b => a.q_para_index < b.q_para_index) →
      (∀ p ∈ S, p.q_para_index < paras.length) →
      ∀ p ∈ S, ∃ k,
        (assembleFrom paras S idx)[k]? = some (headlinePara p.headline) ∧
        (assembleFrom paras S idx)[k + 1]? = (paras[p.q_para_index]?).map copyElem := by
  intro S
  induction S with
  | nil => intro idx _ _ p hp; simp at hp
  | cons p0 rest ih =>
    intro idx hasc hin p hp
    have hp0N : p0.q_para_index < paras.length := hin p0 (by simp)
    have hp0e : p0.q_para_index < firstStart rest paras.length := by
      cases rest with
      | nil => simpa [firstStart] using hp0N
      | cons q r2 =>
        simpa [firstStart] using (List.pairwise_cons.mp hasc).1 q (by simp)
    rw [assembleFrom]
    set A := copiesSlice paras idx p0.q_para_index with hA
    set B := copiesSlice paras p0.q_para_index (firstStart rest paras.length) with hB
    set C := assembleFrom paras rest (firstStart rest paras.length) with hC
    have hBcons : B = copyElem paras[p0.q_para_index] ::
        copiesSlice paras (p0.q_para_index + 1) (firstStart rest paras.length) :=
      copiesSlice_cons paras _ _ hp0e hp0N
    rcases List.mem_cons.mp hp with rfl | hp2
    · refine ⟨A.length, ?_, ?_⟩
      · rw [List.getElem?_append_left (by simp :
          A.length < (A ++ headlinePara p.headline :: B).length)]
        rw [List.getElem?_append_right (Nat.le_refl A.length), Nat.sub_self]
        simp
      · rw [List.getElem?_append_left (by
          simp only [List.length_append, List.length_cons, hBcons]
          omega : A.length + 1 < (A ++ headlinePara p.headline :: B).length)]
        rw [List.getElem?_append_right (by omega : A.length ≤ A.length + 1)]
        rw [show A.length + 1 - A.length = 0 + 1 by omega]
        rw [List.getElem?_cons_succ]
        rw [hBcons, List.getElem?_cons_zero]
        rw [List.getElem?_eq_getElem hp0N]
        rfl
    · obtain ⟨k, hk1, hk2⟩ := ih (firstStart rest paras.length)
        (List.pairwise_cons.mp hasc).2
        (fun q hq => hin q (List.mem_cons_of_mem p0 hq)) p hp2
      refine ⟨(A ++ headlinePara p0.headline :: B).length + k, ?_, ?_⟩
      · rw [List.getElem?_append_right (Nat.le_add_right _ _)]
        rw [Nat.add_sub_cancel_left]
        exact hk1
      · rw [List.getElem?_append_right (by omega :
          (A ++ headlinePara p0.headline :: B).length ≤
            (A ++ headlinePara p0.headline :: B).length + k + 1)]
        rw [show (A ++ headlinePara p0.headline :: B).length + k + 1 -
          (A ++ headlinePara p0.headline :: B).length = k + 1 by omega]
        exact hk2

/-- Every element the reassembly loop ever emits is either a synthesized
headline paragraph or the copy of an original paragraph. -/
theorem buildDoc_elems (paras : List Para) (hmap : List (Nat × String))
    (ranges : List (Nat × Nat)) :
    ∀ (fuel idx : Nat) (doc : List DocElem),
      buildDoc paras hmap ranges fuel idx = some doc →
      ∀ e ∈ doc, (∃ h, e = headlinePara h) ∨ ∃ p, e = copyElem p := by
  intro fuel
  induction fuel with
  | zero => intro idx doc h; simp [buildDoc] at h
  | succ f ih =>
    intro idx doc h
    rw [buildDoc] at h
    by_cases hidx : idx < paras.length
    · rw [dif_pos hidx] at h
      cases hm : dlookup hmap idx with
      | some htext =>
        simp only [hm] at h
        cases hr : dlookup ranges idx with
        | none => simp only [hr] at h; simp at h
        | some endIdx =>
          simp only [hr] at h
          cases hc : copyRange paras idx endIdx with
          | none => simp only [hc] at h; simp at h
          | some copied =>
            simp only [hc] at h
            cases hb : buildDoc paras hmap ranges f endIdx with
            | none => simp only [hb] at h; simp at h
            | some rest =>
              simp only [hb] at h
              obtain rfl : headlinePara htext :: (copied ++ rest) = doc := by
                simpa using h
              intro e he
              rcases List.mem_cons.mp he with rfl | he2
              · exact Or.inl ⟨htext, rfl⟩
              · rcases List.mem_append.mp he2 with he3 | he3
                · exact Or.inr (copyRange_elems paras (endIdx - idx) idx
                    copied hc e he3)
                · exact ih endIdx rest hb e he3
      | none =>
        simp only [hm] at h
        by_cases hproc : isProcessed ranges idx = true
        · rw [if_pos hproc] at h
          exact ih (idx + 1) doc h
        · rw [if_neg hproc] at h
          cases hb : buildDoc paras hmap ranges f (idx + 1) with
          | none => simp only [hb] at h; simp at h
          | some rest =>
            simp only [hb] at h
            obtain rfl : copyElem paras[idx] :: rest = doc := by simpa using h
            intro e he
            rcases List.mem_cons.mp he with rfl | he2
            · exact Or.inr ⟨paras[idx], rfl⟩
            · exact ih (idx + 1) rest hb e he2
    · rw [dif_neg hidx] at h
      obtain rfl : ([] : List DocElem) = doc := by simpa using h
      simp

/-! ## Claim theorems -/

/-- C6: on the six-paragraph input the Pair Segmenter emits exactly two
pairs: `("A?\nmore of A", "B.\nmore of B", 0)` with continuation lines
joined by newline, and `("C?", "D.", 4)`. -/
theorem C6_segmenter_scenario2 :
    segmentPairs ["Question: A?", "more of A", "Answer: B.", "more of B",
        "Question: C?", "Answer: D."] =
      [{ question := "A?\nmore of A", answer := "B.\nmore of B", q_para_index := 0 },
       { question := "C?", answer := "D.", q_para_index := 4 }] := by
  decide

/-- C10: a paragraph that is exactly the bare answer marker appends no
answer line but switches the segmenter into answer-collection mode (when a
question is open, the state changes only by setting `is_parsing_answer`),
and consequently `["Question: Q?", "Answer:", "B"]` yields the single pair
`("Q?", "B", 0)`. -/
theorem C10_bare_answer_marker :
    (∀ (st : SegState) (i : Nat), truthyQ st.current_q = true →
        segStep i st ("Answer:") = { st with is_parsing_answer := true }) ∧
    segmentPairs ["Question: Q?", "Answer:", "B"] =
      [{ question := "Q?", answer := "B", q_para_index := 0 }] := by
  constructor
  · intro st i h
    have h1 : qMatch (pyStrip ("Answer:")) = none := rfl
    have h2 : aMatch (pyStrip ("Answer:")) = some "" := rfl
    show segStep i st ("Answer:") = _
    unfold segStep
    simp only [h1, h2]
    have h3 : ¬(pyStrip ("Answer:") = "") := by decide
    rw [if_neg h3, h]
    simp
  · decide

/-- C10 witness: the mode-switch equation applied to a concrete open-question
state. -/
theorem C10_bare_answer_marker_witness :
    truthyQ (some "Q?") = true ∧
    segStep 1 (⟨[], some ("Q?"), [], 0, false, 0⟩ : SegState) ("Answer:") =
      (⟨[], some ("Q?"), [], 0, true, 0⟩ : SegState) :=
  ⟨by decide, C10_bare_answer_marker.1 _ 1 (by decide)⟩

/-- C2 counterexample: an unreadable source and a successfully parsed
paragraph-less document produce the very same result `([], [])`, so the
failure outcome is not distinguishable by the caller from a successful
parse that finds zero pairs. -/
theorem C2_read_failure_counterexample :
    parse_qna_pairs none = parse_qna_pairs (some []) ∧
    parse_qna_pairs none = ([], []) :=
  ⟨rfl, rfl⟩

/-- C2 amended: when the input cannot be decoded, `parse_qna_pairs` catches
the exception and returns `([], [])` — no dedicated error outcome — and the
caller reacts to any empty pair list (read failure or genuinely zero pairs
found) with the same skip-the-file path, not a hard stop. -/
theorem C2_read_failure_amended :
    parse_qna_pairs none = ([], []) ∧
    callerSkipsFile (parse_qna_pairs none) = true ∧
    ∀ paras, (segmentPairs (paras.map Para.text)).isEmpty = true →
      callerSkipsFile (parse_qna_pairs (some paras)) = true := by
  refine ⟨rfl, rfl, fun paras h => ?_⟩
  simpa [parse_qna_pairs, callerSkipsFile] using h

/-- C2 amended witness: a readable document with no markers is skipped the
same way a read failure is. -/
theorem C2_read_failure_amended_witness :
    (segmentPairs (([⟨"plain text", none⟩] : List Para).map Para.text)).isEmpty = true ∧
    callerSkipsFile (parse_qna_pairs (some [⟨"plain text", none⟩])) = true :=
  ⟨by decide, C2_read_failure_amended.2.2 [⟨"plain text", none⟩] (by decide)⟩

/-- C3: the call site in src/app.py passes the keyword argument
prompt_template, but the parameter list of generate_headline in
src/backend.py is (question, answer, model_name) only, so the call raises
TypeError instead of reaching the function body; the body itself, on a
failure outcome, does return a sentinel-bearing string. -/
theorem C3_signature_mismatch :
    kwargsAccepted generate_headline_params app_call_kwargs = false ∧
    ∀ q a m, pyIn ("خطأ") (generate_headline q a m ModelOutcome.raises) = true ∧
      pyIn ("خطأ") (generate_headline q a m (ModelOutcome.response "")) = true := by
  refine ⟨by decide, fun q a m => ⟨?_, ?_⟩⟩
  · apply pyIn_of_data_eq _ _ ((" في إنشاء عنوان للسؤال: " ++ pyTake 30 q ++ "... (خطأ API)").data)
    show (("خطأ في إنشاء عنوان للسؤال: " ++ pyTake 30 q ++ "... (خطأ API)").data = _)
    rw [String.data_append, String.data_append, String.data_append, String.data_append]
    rw [show ("خطأ في إنشاء عنوان للسؤال: ").data =
      ("خطأ").data ++ (" في إنشاء عنوان للسؤال: ").data from rfl]
    simp
  · apply pyIn_of_data_eq _ _
      ((" في إنشاء عنوان للسؤال: " ++ pyTake 30 q ++ "... (استجابة فارغة أو محظورة)").data)
    show (("خطأ في إنشاء عنوان للسؤال: " ++ pyTake 30 q ++
      "... (استجابة فارغة أو محظورة)").data = _)
    rw [String.data_append, String.data_append, String.data_append, String.data_append]
    rw [show ("خطأ في إنشاء عنوان للسؤال: ").data =
      ("خطأ").data ++ (" في إنشاء عنوان للسؤال: ").data from rfl]
    simp

theorem empty_append_str (s : String) : "" ++ s = s := by
  apply String.ext
  rw [String.data_append]
  rfl

theorem elemText_copyElem (p : Para) : elemText (copyElem p) = p.text := by
  unfold elemText copyElem
  by_cases h : p.text = ""
  · simp [h, String.join]
  · simp [h, String.join, empty_append_str]

theorem elemAlign_copyElem (p : Para) : elemAlign (copyElem p) = p.alignment := by
  unfold elemAlign copyElem
  by_cases h : p.text = "" <;> simp [h]

/-- C4: for a pair list with distinct in-range start indices (as the
segmenter produces), the reassembled document exists, erasing its headline
paragraphs leaves exactly the original paragraphs (verbatim text and
alignment, each exactly once, in original order), and each pair's headline
paragraph sits immediately before the copy of the pair's first original
paragraph. -/
theorem C4_reassembler_guarantees (paras : List Para) (hpairs : List HPair)
    (hnd : (hpairs.map fun p => p.q_para_index).Nodup)
    (hin : ∀ p ∈ hpairs, p.q_para_index < paras.length) :
    ∃ doc, create_modified_document paras hpairs = some doc ∧
      doc.filter (fun e => !isHeadlineElem e) = paras.map copyElem ∧
      ∀ p ∈ hpairs, ∃ k, doc[k]? = some (headlinePara p.headline) ∧
        doc[k + 1]? = (paras[p.q_para_index]?).map copyElem := by
  have hperm := sortPairs_perm hpairs
  have hasc := sortPairs_strict hpairs hnd
  have hinS : ∀ p ∈ sortPairs hpairs, p.q_para_index < paras.length :=
    fun p hp => hin p (hperm.subset hp)
  refine ⟨assembleFrom paras (sortPairs hpairs) 0,
    create_modified_document_eq paras hpairs hnd hin, ?_, ?_⟩
  · rw [assembleFrom_filter paras (sortPairs hpairs) 0 hasc hinS (Nat.zero_le _)]
    exact copiesSlice_full paras
  · intro p hp
    exact assembleFrom_position paras (sortPairs hpairs) 0 hasc hinS p
      (hperm.mem_iff.mpr hp)

/-- C4 witness: the guarantee instantiated on a three-paragraph document
with one pair starting at index 1. -/
theorem C4_reassembler_guarantees_witness :
    (([(⟨"Q?", "A.", 1, "H"⟩ : HPair)]).map fun p => p.q_para_index).Nodup ∧
    (∀ p ∈ [(⟨"Q?", "A.", 1, "H"⟩ : HPair)], p.q_para_index <
      ([⟨"intro", none⟩, ⟨"Question: Q?", some 2⟩, ⟨"Answer: A.", none⟩] :
        List Para).length) ∧
    (∃ doc, create_modified_document
        [⟨"intro", none⟩, ⟨"Question: Q?", some 2⟩, ⟨"Answer: A.", none⟩]
        [⟨"Q?", "A.", 1, "H"⟩] = some doc ∧
      doc.filter (fun e => !isHeadlineElem e) =
        ([⟨"intro", none⟩, ⟨"Question: Q?", some 2⟩, ⟨"Answer: A.", none⟩] :
          List Para).map copyElem ∧
      ∀ p ∈ [(⟨"Q?", "A.", 1, "H"⟩ : HPair)], ∃ k,
        doc[k]? = some (headlinePara p.headline) ∧
        doc[k + 1]? = ((([⟨"intro", none⟩, ⟨"Question: Q?", some 2⟩,
          ⟨"Answer: A.", none⟩] : List Para))[p.q_para_index]?).map copyElem) :=
  ⟨by decide, by decide, C4_reassembler_guarantees _ _ (by decide) (by decide)⟩

/-- C8: reassembling with an empty pair list reproduces the original
paragraph sequence: same length, same text and same alignment at every
index, in order. -/
theorem C8_zero_pairs_round_trip (paras : List Para) :
    create_modified_document paras [] = some (paras.map copyElem) ∧
    (paras.map copyElem).length = paras.length ∧
    (∀ i : Nat, ((paras.map copyElem)[i]?).map elemText = (paras[i]?).map Para.text) ∧
    (∀ i : Nat, ((paras.map copyElem)[i]?).map elemAlign = (paras[i]?).map Para.alignment) := by
  refine ⟨?_, by simp, ?_, ?_⟩
  · have h := create_modified_document_eq paras [] (by simp) (by simp)
    rw [h, show sortPairs ([] : List HPair) = [] from rfl, assembleFrom,
      copiesSlice_full]
  · intro i
    simp only [List.getElem?_map]
    cases h : paras[i]? with
    | none => simp
    | some p => simp [elemText_copyElem]
  · intro i
    simp only [List.getElem?_map]
    cases h : paras[i]? with
    | none => simp
    | some p => simp [elemAlign_copyElem]

/-- C5: on any pair list with distinct start indices in `[0, N)`, the range
pre-calculation maps each sorted pair's start to the next sorted start (or
`N` for the last), ranges never overlap, the consumed set stays inside
`[0, N)`, and zero pairs give an empty map and empty consumed set. -/
theorem C5_range_resolver (hpairs : List HPair) (N : Nat)
    (hnd : (hpairs.map fun p => p.q_para_index).Nodup)
    (hin : ∀ p ∈ hpairs, p.q_para_index < N) :
    (∀ (i : Nat) (h1 : i < (sortPairs hpairs).length)
        (h2 : i + 1 < (sortPairs hpairs).length),
        dlookup (qnaRanges (sortPairs hpairs) N)
            ((sortPairs hpairs).get ⟨i, h1⟩).q_para_index =
          some ((sortPairs hpairs).get ⟨i + 1, h2⟩).q_para_index) ∧
    (∀ h : sortPairs hpairs ≠ [],
        dlookup (qnaRanges (sortPairs hpairs) N)
          ((sortPairs hpairs).getLast h).q_para_index = some N) ∧
    (∀ p₁ ∈ hpairs, ∀ p₂ ∈ hpairs, ∀ e₁,
        dlookup (qnaRanges (sortPairs hpairs) N) p₁.q_para_index = some e₁ →
        p₁.q_para_index < p₂.q_para_index → e₁ ≤ p₂.q_para_index) ∧
    (∀ j, isProcessed (qnaRanges (sortPairs hpairs) N) j = true → j < N) ∧
    (qnaRanges (sortPairs ([] : List HPair)) N = [] ∧
      ∀ j, isProcessed (qnaRanges (sortPairs ([] : List HPair)) N) j = false) := by
  have hperm := sortPairs_perm hpairs
  have hasc := sortPairs_strict hpairs hnd
  have hndS : ((sortPairs hpairs).map fun p => p.q_para_index).Nodup :=
    strict_nodup_keys _ hasc
  have hinS : ∀ p ∈ sortPairs hpairs, p.q_para_index < N :=
    fun p hp => hin p (hperm.subset hp)
  refine ⟨?_, ?_, ?_, ?_, rfl, fun _ => rfl⟩
  · intro i h1 h2
    have hdec : sortPairs hpairs = (sortPairs hpairs).take i ++
        (sortPairs hpairs).get ⟨i, h1⟩ :: (sortPairs hpairs).drop (i + 1) := by
      rw [List.get_eq_getElem]
      conv_lhs => rw [← List.take_append_drop i (sortPairs hpairs)]
      rw [List.drop_eq_getElem_cons h1]
    have hfs : firstStart ((sortPairs hpairs).drop (i + 1)) N =
        ((sortPairs hpairs).get ⟨i + 1, h2⟩).q_para_index := by
      rw [List.get_eq_getElem, List.drop_eq_getElem_cons h2]
      rfl
    rw [← hfs]
    apply dlookup_mem
    · have hmem := qnaRanges_entry N ((sortPairs hpairs).take i)
        ((sortPairs hpairs).get ⟨i, h1⟩) ((sortPairs hpairs).drop (i + 1))
      rw [← hdec] at hmem
      exact hmem
    · rw [qnaRanges_map_fst]; exact hndS
  · intro h
    have hmem := qnaRanges_entry N ((sortPairs hpairs).dropLast)
      ((sortPairs hpairs).getLast h) []
    rw [List.dropLast_append_getLast h] at hmem
    apply dlookup_mem
    · exact hmem
    · rw [qnaRanges_map_fst]; exact hndS
  · intro p₁ hp₁ p₂ hp₂ e₁ hl hlt
    exact qnaRanges_overlap (sortPairs hpairs) N hasc (p₁.q_para_index, e₁)
      (dlookup_some_mem _ _ _ hl) p₂ (hperm.mem_iff.mpr hp₂) hlt
  · intro j hj
    obtain ⟨r, hr, hr1, hr2⟩ := isProcessed_mem _ _ hj
    have := qnaRanges_hi_le (sortPairs hpairs) N hinS r hr
    omega

/-- C5 witness: the resolver properties instantiated on one pair with start
index 1 in a two-paragraph space. -/
theorem C5_range_resolver_witness :
    (([(⟨"q", "a", 1, "h"⟩ : HPair)]).map fun p => p.q_para_index).Nodup ∧
    (∀ p ∈ [(⟨"q", "a", 1, "h"⟩ : HPair)], p.q_para_index < 2) ∧
    ((∀ (i : Nat) (h1 : i < (sortPairs [(⟨"q", "a", 1, "h"⟩ : HPair)]).length)
        (h2 : i + 1 < (sortPairs [(⟨"q", "a", 1, "h"⟩ : HPair)]).length),
        dlookup (qnaRanges (sortPairs [(⟨"q", "a", 1, "h"⟩ : HPair)]) 2)
            ((sortPairs [(⟨"q", "a", 1, "h"⟩ : HPair)]).get ⟨i, h1⟩).q_para_index =
          some ((sortPairs [(⟨"q", "a", 1, "h"⟩ : HPair)]).get ⟨i + 1, h2⟩).q_para_index) ∧
    (∀ h : sortPairs [(⟨"q", "a", 1, "h"⟩ : HPair)] ≠ [],
        dlookup (qnaRanges (sortPairs [(⟨"q", "a", 1, "h"⟩ : HPair)]) 2)
          ((sortPairs [(⟨"q", "a", 1, "h"⟩ : HPair)]).getLast h).q_para_index = some 2) ∧
    (∀ p₁ ∈ [(⟨"q", "a", 1, "h"⟩ : HPair)], ∀ p₂ ∈ [(⟨"q", "a", 1, "h"⟩ : HPair)], ∀ e₁,
        dlookup (qnaRanges (sortPairs [(⟨"q", "a", 1, "h"⟩ : HPair)]) 2)
          p₁.q_para_index = some e₁ →
        p₁.q_para_index < p₂.q_para_index → e₁ ≤ p₂.q_para_index) ∧
    (∀ j, isProcessed (qnaRanges (sortPairs [(⟨"q", "a", 1, "h"⟩ : HPair)]) 2) j = true →
      j < 2) ∧
    (qnaRanges (sortPairs ([] : List HPair)) 2 = [] ∧
      ∀ j, isProcessed (qnaRanges (sortPairs ([] : List HPair)) 2) j = false)) :=
  ⟨by decide, by decide, C5_range_resolver [(⟨"q", "a", 1, "h"⟩ : HPair)] 2
    (by decide) (by decide)⟩

/-- C1 counterexample: a document with one pair whose headline generation
failed (sentinel-bearing string).  The caller filters the pair out before
reassembly, so the reassembled document contains no annotation of it at all
(in particular no italicized one): the whole pair is dropped from the
headline list, contradicting the claim that it is still included. -/
theorem C1_error_headline_counterexample :
    attachHeadlines (parse_qna_pairs (some [⟨"Question: Q?", none⟩, ⟨"Answer: A.", none⟩])).1
        [generate_headline ("Q?") ("A.") ("gemini-1.5-flash") ModelOutcome.raises] = [] ∧
    create_modified_document [⟨"Question: Q?", none⟩, ⟨"Answer: A.", none⟩]
        (attachHeadlines (parse_qna_pairs (some [⟨"Question: Q?", none⟩, ⟨"Answer: A.", none⟩])).1
          [generate_headline ("Q?") ("A.") ("gemini-1.5-flash") ModelOutcome.raises]) =
      some (([⟨"Question: Q?", none⟩, ⟨"Answer: A.", none⟩] : List Para).map copyElem) ∧
    (([⟨"Question: Q?", none⟩, ⟨"Answer: A.", none⟩] : List Para).map copyElem).all
      (fun e => !isHeadlineElem e) = true := by
  decide

/-- C1 amended: pairs whose generated headline bears the sentinel are
dropped by the caller before reassembly (every retained pair's headline is
sentinel-free), and every headline paragraph the reassembler emits is the
bold enlarged title — no italicized degraded annotation exists. -/
theorem C1_degraded_annotation_amended :
    (∀ pairs hs, ∀ hp ∈ attachHeadlines pairs hs, pyIn ("خطأ") hp.headline = false) ∧
    (∀ paras hpairs doc, create_modified_document paras hpairs = some doc →
      ∀ e ∈ doc, isHeadlineElem e = true → ∃ h, e = headlinePara h) := by
  constructor
  · intro pairs hs hp hmem
    unfold attachHeadlines at hmem
    obtain ⟨x, _, hfx⟩ := List.mem_filterMap.mp hmem
    by_cases hx : pyIn ("خطأ") x.2 = true
    · rw [if_pos hx] at hfx; simp at hfx
    · rw [if_neg hx] at hfx
      obtain rfl : (⟨x.1.question, x.1.answer, x.1.q_para_index, x.2⟩ : HPair) = hp := by
        simpa using hfx
      simpa using hx
  · intro paras hpairs doc hdoc e he hhl
    have := buildDoc_elems paras (hpairs.map fun p => (p.q_para_index, p.headline))
      (qnaRanges (sortPairs hpairs) paras.length) (paras.length + 1) 0 doc hdoc e he
    rcases this with ⟨h, rfl⟩ | ⟨p, rfl⟩
    · exact ⟨h, rfl⟩
    · rw [isHeadlineElem_copyElem] at hhl
      simp at hhl

/-- C1 amended witness: the filter keeps a clean headline, and the emitted
headline element of a one-pair document is the bold title. -/
theorem C1_degraded_annotation_amended_witness :
    pyIn ("خطأ") ("H") = false ∧ ∃ h, headlinePara ("H") = headlinePara h :=
  ⟨C1_degraded_annotation_amended.1 [⟨"Q?", "A.", 0⟩] ["H"] ⟨"Q?", "A.", 0, "H"⟩
      (by decide),
   C1_degraded_annotation_amended.2 [⟨"Question: Q?", none⟩] [⟨"Q?", "A.", 0, "H"⟩]
      (headlinePara ("H") :: [copyElem ⟨"Question: Q?", none⟩]) (by decide)
      (headlinePara ("H")) (by decide) (by decide)⟩

/-- C9: the Document Merger emits exactly the included documents in input
order joined by single page breaks; a fully absent or empty input list
yields an empty (well-formed) document and `[docA, None, docB]` yields
docA's paragraphs, one page break, docB's paragraphs. -/
theorem C9_merge_order (docs : List (Option (List DocElem))) :
    merge_documents docs = joinWithBreaks (docs.filterMap id) ∧
    merge_documents [] = [] ∧
    ∀ A B, merge_documents [some A, none, some B] = A ++ DocElem.pageBreak :: B := by
  refine ⟨merge_documents_eq docs, rfl, fun A B => ?_⟩
  rw [merge_documents_eq]
  simp [joinWithBreaks]

/-- C7: a pair is emitted at finalization (next question marker or end of
input) exactly when an open question has collected at least one answer
line, and a warning is produced exactly when an open question has none; all
collected lines being non-empty, every emitted pair's answer is non-empty.
In particular a single orphaned question yields zero pairs and one
warning. -/
theorem C7_orphaned_question :
    (segmentPairs ["Question: Orphan?"] = [] ∧
      segmentWarnings ["Question: Orphan?"] = 1) ∧
    (∀ texts : List String, ∀ p ∈ segmentPairs texts, p.answer ≠ "") ∧
    (∀ st : SegState,
      ((finalizePair st).pairs.length = st.pairs.length + 1 ↔
        (truthyQ st.current_q = true ∧ st.current_a ≠ [])) ∧
      ((finalizePair st).warnings = st.warnings + 1 ↔
        (truthyQ st.current_q = true ∧ st.current_a = []))) := by
  refine ⟨by decide, ?_, ?_⟩
  · intro texts p hp
    exact (segInv_run texts).2 p hp
  · intro st
    unfold finalizePair
    by_cases h1 : (truthyQ st.current_q && !st.current_a.isEmpty) = true
    · rw [if_pos h1]
      have h2 : truthyQ st.current_q = true ∧ st.current_a ≠ [] := by
        constructor
        · cases htq : truthyQ st.current_q
          · rw [htq] at h1; simp at h1
          · rfl
        · intro hnil
          rw [hnil] at h1
          simp at h1
      constructor
      · simp [h2]
      · constructor
        · intro hw
          simp at hw
        · intro h3
          exact absurd h3.2 h2.2
    · rw [if_neg h1]
      by_cases h2 : truthyQ st.current_q = true
      · rw [if_pos h2]
        have h3 : st.current_a = [] := by
          cases hca : st.current_a with
          | nil => rfl
          | cons x r =>
            rw [h2, hca] at h1
            simp at h1
        constructor
        · constructor
          · intro hp
            simp at hp
          · intro h4
            exact absurd h3 h4.2
        · simp [h2, h3]
      · rw [if_neg h2]
        constructor
        · constructor
          · intro hp; simp at hp
          · intro h4; exact absurd h4.1 h2
        · constructor
          · intro hw; simp at hw
          · intro h4; exact absurd h4.1 h2

/-- C7 witness: a concrete emitted pair has a non-empty answer, and the
finalize rule emits from a state with one collected answer line. -/
theorem C7_orphaned_question_witness :
    (⟨"Q?", "A.", 0⟩ : Pair).answer ≠ "" ∧
    (finalizePair (⟨[], some ("Q?"), ["A."], 0, true, 0⟩ : SegState)).pairs.length =
      ([] : List Pair).length + 1 :=
  ⟨C7_orphaned_question.2.1 ["Question: Q?", "Answer: A."] _ (by decide),
   ((C7_orphaned_question.2.2 (⟨[], some ("Q?"), ["A."], 0, true, 0⟩ : SegState)).1).mpr
     ⟨by decide, by decide⟩⟩

end Qna
